import Mathlib

/-!
Verification of the dir2prompt traversal / ignore-matching / rendering engine
(`src/lib.rs`), shallowly embedded in Lean.

A filesystem subtree is modelled as an association list of named entries:
a file carries `Option String` content (`none` = unreadable / non-text,
mirroring a failing `fs::read_to_string`), a directory carries its children
in `read_dir` enumeration order.
-/

namespace Dir2Prompt

/-- A filesystem node: file content (`none` = unreadable) or directory children. -/
inductive Fs where
  | file : Option String → Fs
  | dir : List (String × Fs) → Fs
deriving Repr

/-- Is this node a directory?  Mirrors `path.is_dir()`. -/
def Fs.isDir : Fs → Bool
  | .file _ => false
  | .dir _ => true

/-! ### String helpers mirroring the Rust std operations used by lib.rs -/

/-- Rust `name.starts_with` applied to the character `'.'`. -/
def startsWithDot (s : String) : Bool :=
  match s.data with
  | '.' :: _ => true
  | _ => false

/-- Drop one leading dot if present (Rust strips the optional `'.'` from an
extension spec and falls back to the spec itself). -/
def dropDot (s : String) : String :=
  match s.data with
  | '.' :: rest => ⟨rest⟩
  | _ => s

/-- Rust `to_lowercase` (ASCII case folding). -/
def lowerStr (s : String) : String :=
  ⟨s.data.map Char.toLower⟩

/-- Split a character list at its last `'.'`: returns `(before, after)`,
or `none` when no dot occurs. -/
def splitDotsAux : List Char → Option (List Char × List Char)
  | [] => none
  | c :: cs =>
    match splitDotsAux cs with
    | some (b, a) => some (c :: b, a)
    | none => if c = '.' then some ([], cs) else none

/-- Rust `Path::extension` on a file name: the portion after the last dot,
unless the only dot is the leading character (then `none`). -/
def extOf (s : String) : Option String :=
  match s.data with
  | [] => none
  | _ :: rest =>
    match splitDotsAux rest with
    | some (_, a) => some ⟨a⟩
    | none => none

/-- Rust `Path::file_stem` on a file name: the portion before the last dot,
with a lone leading dot not counting as a separator. -/
def fileStem (s : String) : String :=
  match s.data with
  | [] => ""
  | c :: rest =>
    match splitDotsAux rest with
    | some (b, _) => ⟨c :: b⟩
    | none => s

/-- Remove `p` from the front of `l` when it is literally there. -/
def dropFrontQ : List Char → List Char → Option (List Char)
  | l, [] => some l
  | [], _ :: _ => none
  | c :: l, p :: ps => if c = p then dropFrontQ l ps else none

/-- Rust `str::strip_suffix`: remove `suf` from the end of `s` if present. -/
def stripSuffixQ (s suf : String) : Option String :=
  (dropFrontQ s.data.reverse suf.data.reverse).map (fun l => ⟨l.reverse⟩)

/-- Rust `str::ends_with`. -/
def strEndsWith (s suf : String) : Bool :=
  (stripSuffixQ s suf).isSome

/-- Rust `str::trim` restricted to ASCII whitespace. -/
def strTrim (s : String) : String :=
  ⟨((s.data.dropWhile Char.isWhitespace).reverse.dropWhile Char.isWhitespace).reverse⟩

/-- Display of a relative path built by repeated `PathBuf::join`: components
interspersed with `/`. -/
def renderPath (p : List String) : String :=
  String.intercalate "/" p

/-! ### The ignore logic of `walk` (lib.rs lines 404-441) -/

/-- lib.rs 300-303: the set of ignored file extensions, built from the
file-ignore list by stripping an optional leading dot and lowercasing. -/
def ignore_exts (ignore_files : List String) : List String :=
  ignore_files.map (fun s => lowerStr (dropDot s))

/-- Extension part of the file-ignore check (lib.rs 429-432): the entry has
an extension and its lowercased form is among the compiled extension set. -/
def extMatches (iexts : List String) (name : String) : Bool :=
  match extOf name with
  | some ext => iexts.contains (lowerStr ext)
  | none => false

/-- The `ignore` computation of `walk` (lib.rs 423-433): exact name match
for directories; exact full-name match or extension match for files. -/
def ignoreMatch (ignore_dirs ignore_files iexts : List String) (e : String × Fs) : Bool :=
  if e.2.isDir then
    ignore_dirs.contains e.1
  else
    ignore_files.contains e.1 || extMatches iexts e.1

/-- The per-entry filter of `walk`: dotfile check with the two literal
exceptions (lib.rs 413-417), then the ignore-list check.  Returns `true`
when the entry is kept. -/
def keepEntry (ignore_dirs ignore_files iexts : List String) (e : String × Fs) : Bool :=
  if startsWithDot e.1 && e.1 ≠ ".env.example" && e.1 ≠ ".example.env" then
    false
  else
    !ignoreMatch ignore_dirs ignore_files iexts e

/-- Lexicographic (codepoint) comparison of character lists; on UTF-8 data
this is exactly Rust's byte-lexicographic `String` order. -/
def charListLe : List Char → List Char → Bool
  | [], _ => true
  | _ :: _, [] => false
  | a :: as, b :: bs => if a = b then charListLe as bs else decide (a < b)

/-- Comparator used to sort sibling names (Rust `Vec<String>::sort`,
byte-lexicographic). -/
def nameLe (a b : String × Fs) : Bool :=
  charListLe a.1.data b.1.data

/-- Stable insertion of an element into a list sorted by `nameLe`: the new
element goes after every existing element that compares `≤` to it. -/
def insertLe (x : String × Fs) : List (String × Fs) → List (String × Fs)
  | [] => [x]
  | y :: l => if nameLe y x then y :: insertLe x l else x :: y :: l

/-- Rust `Vec<String>::sort` is a stable sort by byte-lexicographic order;
all stable sorts of the same comparator agree, so we embed it as a stable
insertion sort. -/
def sortPairs : List (String × Fs) → List (String × Fs)
  | [] => []
  | x :: l => insertLe x (sortPairs l)

/-- The `visible_entries` list of `walk`: surviving children, sorted by name. -/
def visSort (children : List (String × Fs)) (ignore_dirs ignore_files iexts : List String) :
    List (String × Fs) :=
  sortPairs (children.filter (keepEntry ignore_dirs ignore_files iexts))

/-- The render loop of `walk` (lib.rs 443-468), recursing over the sorted
visible entries: builds the tree text and the relative paths of all visible
files, in traversal order. -/
def renderW (entries : List (String × Fs)) (rel : List String) (indent : String)
    (ignore_dirs ignore_files iexts : List String) : String × List (List String) :=
  match entries with
  | [] => ("", [])
  | (name, node) :: rest =>
    let isLast := rest.isEmpty
    let connector := if isLast then "└── " else "├── "
    let head := indent ++ connector ++ name
    match node with
    | Fs.dir ch =>
      let childIndent := indent ++ (if isLast then "    " else "│   ")
      let sub := renderW (visSort ch ignore_dirs ignore_files iexts) (rel ++ [name])
        childIndent ignore_dirs ignore_files iexts
      let restOut := renderW rest rel indent ignore_dirs ignore_files iexts
      (head ++ "/\n" ++ sub.1 ++ restOut.1, sub.2 ++ restOut.2)
    | Fs.file _ =>
      let restOut := renderW rest rel indent ignore_dirs ignore_files iexts
      (head ++ "\n" ++ restOut.1, (rel ++ [name]) :: restOut.2)
termination_by sizeOf entries
decreasing_by
  all_goals simp
  all_goals try
    have hvs : sizeOf (visSort ch ignore_dirs ignore_files iexts) ≤ sizeOf ch := by
      have hins : ∀ (x : String × Fs) (l : List (String × Fs)),
          sizeOf (insertLe x l) = sizeOf (x :: l) := by
        intro x l
        induction l with
        | nil => rfl
        | cons y t ih =>
          by_cases h : nameLe y x = true
          · simp only [insertLe, if_pos h]
            simp only [List.cons.sizeOf_spec] at ih ⊢
            omega
          · simp only [insertLe, if_neg h]
      have hsort : ∀ l : List (String × Fs), sizeOf (sortPairs l) = sizeOf l := by
        intro l
        induction l with
        | nil => rfl
        | cons x t ih =>
          simp only [sortPairs, hins, List.cons.sizeOf_spec] at ih ⊢
          omega
      have hfil : ∀ l : List (String × Fs),
          sizeOf (l.filter (keepEntry ignore_dirs ignore_files iexts)) ≤ sizeOf l := by
        intro l
        induction l with
        | nil => simp
        | cons x t ih =>
          by_cases h : keepEntry ignore_dirs ignore_files iexts x = true
          · simp only [List.filter_cons, h, if_pos trivial, List.cons.sizeOf_spec]
            omega
          · simp only [List.filter_cons, h, Bool.false_eq_true, if_false,
              List.cons.sizeOf_spec]
            omega
      calc sizeOf (visSort ch ignore_dirs ignore_files iexts)
          = sizeOf (ch.filter (keepEntry ignore_dirs ignore_files iexts)) := hsort _
        _ ≤ sizeOf ch := hfil _
  all_goals omega

/-- lib.rs `walk` (394-470): list children, filter by ignore logic, sort,
render.  Returns `(treeText, fileList)`. -/
def walk (children : List (String × Fs)) (rel : List String) (indent : String)
    (ignore_dirs ignore_files iexts : List String) : String × List (List String) :=
  renderW (visSort children ignore_dirs ignore_files iexts) rel indent
    ignore_dirs ignore_files iexts

/-! ### `collect_dirs` (lib.rs 365-390) -/

/-- The body of `collect_dirs` after the sorted entry list is built: skip
dot-entries, and for each non-ignored directory record its name and recurse
(the recursive call re-sorts that directory's children, as `collect_dirs`
re-reads and re-sorts on entry). -/
def collectGo (entries : List (String × Fs)) (dir_ignores : List String) : List String :=
  match entries with
  | [] => []
  | (name, node) :: rest =>
    if startsWithDot name then collectGo rest dir_ignores
    else
      match node with
      | Fs.dir ch =>
        if dir_ignores.contains name then collectGo rest dir_ignores
        else
          name :: (collectGo (sortPairs ch) dir_ignores ++
            collectGo rest dir_ignores)
      | Fs.file _ => collectGo rest dir_ignores
termination_by sizeOf entries
decreasing_by
  all_goals simp
  all_goals try
    have hso : sizeOf (sortPairs ch) = sizeOf ch := by
      have hins : ∀ (x : String × Fs) (l : List (String × Fs)),
          sizeOf (insertLe x l) = sizeOf (x :: l) := by
        intro x l
        induction l with
        | nil => rfl
        | cons y t ih =>
          by_cases h : nameLe y x = true
          · simp only [insertLe, if_pos h]
            simp only [List.cons.sizeOf_spec] at ih ⊢
            omega
          · simp only [insertLe, if_neg h]
      have hsort : ∀ l : List (String × Fs), sizeOf (sortPairs l) = sizeOf l := by
        intro l
        induction l with
        | nil => rfl
        | cons x t ih =>
          simp only [sortPairs, hins, List.cons.sizeOf_spec] at ih ⊢
          omega
      exact hsort ch
  all_goals omega

/-- lib.rs `collect_dirs`: names of every non-ignored, non-dot directory
reachable through non-ignored, non-dot ancestors (duplicates possible; the
source stores them in a `HashSet`, which is consumed only through membership
tests). -/
def collect_dirs (children : List (String × Fs)) (dir_ignores : List String) : List String :=
  collectGo (sortPairs children) dir_ignores

/-! ### Prompt assembly (`build_prompt_internal`, lib.rs 276-362) -/

/-- Navigate a relative path (list of components) to a file's content.
`none` models a failing `fs::read_to_string` (missing, directory, or
unreadable). -/
def readFile : List (String × Fs) → List String → Option String
  | _, [] => none
  | children, [n] =>
    match List.lookup n children with
    | some (Fs.file c) => c
    | _ => none
  | children, n :: rest =>
    match List.lookup n children with
    | some (Fs.dir ch) => readFile ch rest
    | _ => none

/-- lib.rs 347-356: the text placed in a `<content>` block.  A failed read
becomes `BINARY OR UNREADABLE`; content that trims to nothing becomes
`EMPTY FILE`. -/
def contentFor (c : Option String) : String :=
  let content :=
    match c with
    | none => "BINARY OR UNREADABLE"
    | some s => s
  if strTrim content = "" then "EMPTY FILE" else content

/-- lib.rs 342-345: a collected file is included when the filter list is
empty or the rendered relative path ends with one of the filter strings. -/
def includeFileB (filter : List String) (rel : List String) : Bool :=
  filter.isEmpty || filter.any (fun f => strEndsWith (renderPath rel) f)

/-- One `<file>` block (lib.rs 349-357). -/
def fileBlock (root : List (String × Fs)) (rel : List String) : String :=
  "<file>\n<path>" ++ renderPath rel ++ "</path>\n<content>\n" ++
    contentFor (readFile root rel) ++ "\n</content>\n</file>\n\n"

/-- The assembly loop over the collected files (lib.rs 340-359): each file
passing the filter check appends its block to the prompt. -/
def blocksFor (root : List (String × Fs)) (filter : List String) :
    List (List String) → String
  | [] => ""
  | rel :: rest =>
    (if includeFileB filter rel then fileBlock root rel else "") ++
      blocksFor root filter rest

/-- lib.rs 312-313: the auto-generated ignore entries `<name>_prompt.txt`
for the root's name and every collected directory name. -/
def prompt_ignores (base : String) (root : List (String × Fs)) (ignore_dirs : List String) :
    List String :=
  (base :: collect_dirs root ignore_dirs).map (fun d => d ++ "_prompt.txt")

/-- lib.rs `build_prompt_internal` (276-362), with the root's display name
`base` passed in (the source derives it from the path / current directory,
which is outside the engine).  Walks the tree and stitches the final
document, or just the tree in tree-only mode. -/
def build_prompt_internal (base : String) (root : List (String × Fs))
    (filter ignore_dirs ignore_files : List String) (tree_only : Bool) : String :=
  let iexts := ignore_exts ignore_files
  let all_ignore_files := ignore_files ++ prompt_ignores base root ignore_dirs
  let res := walk root [] "" ignore_dirs all_ignore_files iexts
  let tree := base ++ "/\n" ++ res.1
  if tree_only then tree
  else
    "<context>\n<directory_tree>\n" ++ tree ++ "</directory_tree>\n\n<files>\n\n" ++
      blocksFor root filter res.2 ++ "</files>\n</context>"

/-! ### Cleanup (lib.rs 87-198) -/

/-- lib.rs `collect_all_sub_dir_names` (90-114): pass 1 of cleanup — names of
every subdirectory that is not a dot-directory and not ignored, recursing
only into such directories. -/
def collect_all_sub_dir_names : List (String × Fs) → List String → List String
  | [], _ => []
  | (name, node) :: rest, ignore_dirs =>
    match node with
    | Fs.dir ch =>
      if !startsWithDot name && !ignore_dirs.contains name then
        name :: (collect_all_sub_dir_names ch ignore_dirs ++
          collect_all_sub_dir_names rest ignore_dirs)
      else
        collect_all_sub_dir_names rest ignore_dirs
    | Fs.file _ => collect_all_sub_dir_names rest ignore_dirs

/-- lib.rs `find_all_prompts` (118-139): pass 2 of cleanup — descend into
every directory (ignored or not) and collect the relative paths of all files
whose name ends with `_prompt.txt`. -/
def find_all_prompts : List (String × Fs) → List (List String)
  | [] => []
  | (name, node) :: rest =>
    match node with
    | Fs.dir ch => (find_all_prompts ch).map (fun p => name :: p) ++ find_all_prompts rest
    | Fs.file _ =>
      if strEndsWith name "_prompt.txt" then [name] :: find_all_prompts rest
      else find_all_prompts rest

/-- The valid-directory-name set of the clean branch of `run_cli`
(lib.rs 163-172): the root's own name seeded into the collected
subdirectory names. -/
def validNames (rootName : String) (root : List (String × Fs)) (ignore_dirs : List String) :
    List String :=
  rootName :: collect_all_sub_dir_names root ignore_dirs

/-- lib.rs 180-189: a candidate file is deleted when its stem strips a
`_prompt` suffix and the remaining base name is a valid directory name. -/
def shouldDelete (valid : List String) (fname : String) : Bool :=
  match stripSuffixQ (fileStem fname) "_prompt" with
  | some base => valid.contains base
  | none => false

/-- Pass 3 of cleanup: the candidate prompt files that get removed. -/
def cleanupDeleted (root : List (String × Fs)) (rootName : String)
    (ignore_dirs : List String) : List (List String) :=
  (find_all_prompts root).filter
    (fun p => shouldDelete (validNames rootName root ignore_dirs) (p.getLastD ""))

/-! ### Canonical form of a tree, for stating traversal-order independence.

A directory listing is enumerated by the OS in an unspecified order; two
enumerations of the same on-disk tree are exactly the trees with the same
canonical (recursively name-sorted) form. -/

mutual

/-- Canonical form of a node: directory children recursively normalised and
sorted by name. -/
def normFs : Fs → Fs
  | Fs.file c => Fs.file c
  | Fs.dir ch => Fs.dir (sortPairs (normList ch))

/-- Canonical form of each entry of a children list (order preserved). -/
def normList : List (String × Fs) → List (String × Fs)
  | [] => []
  | (n, t) :: rest => (n, normFs t) :: normList rest

end

/-- Every directory in the tree has pairwise distinct child names (true of
any real filesystem listing). -/
def deepNodupB : List (String × Fs) → Bool
  | [] => true
  | (n, Fs.file _) :: rest => !((rest.map Prod.fst).contains n) && deepNodupB rest
  | (n, Fs.dir ch) :: rest =>
    !((rest.map Prod.fst).contains n) && deepNodupB ch && deepNodupB rest

/-! ### Order lemmas for the sibling sort -/

theorem insertLe_perm (x : String × Fs) (l : List (String × Fs)) :
    (insertLe x l).Perm (x :: l) := by
  induction l with
  | nil => simp [insertLe]
  | cons y t ih =>
    by_cases h : nameLe y x
    · simpa [insertLe, h] using ((ih.cons y).trans (List.Perm.swap x y t))
    · simp [insertLe, h]

theorem sortPairs_perm (l : List (String × Fs)) : (sortPairs l).Perm l := by
  induction l with
  | nil => simp [sortPairs]
  | cons x t ih => exact (insertLe_perm x (sortPairs t)).trans (ih.cons x)

theorem charListLe_total : ∀ as bs : List Char,
    charListLe as bs = true ∨ charListLe bs as = true := by
  intro as
  induction as with
  | nil => intro bs; left; rfl
  | cons a as ih =>
    intro bs
    cases bs with
    | nil => right; rfl
    | cons b bs =>
      by_cases hab : a = b
      · subst hab
        rcases ih bs with h | h
        · left; simpa [charListLe] using h
        · right; simpa [charListLe] using h
      · rcases lt_trichotomy a b with h | h | h
        · left; simp [charListLe, hab, h]
        · exact absurd h hab
        · right; simp [charListLe, Ne.symm hab, h]

theorem charListLe_trans : ∀ as bs cs : List Char,
    charListLe as bs = true → charListLe bs cs = true → charListLe as cs = true := by
  intro as
  induction as with
  | nil => intro bs cs _ _; rfl
  | cons a as ih =>
    intro bs cs h1 h2
    cases bs with
    | nil => simp [charListLe] at h1
    | cons b bs =>
      cases cs with
      | nil => simp [charListLe] at h2
      | cons c cs =>
        by_cases hab : a = b <;> by_cases hbc : b = c
        · subst hab; subst hbc
          simp only [charListLe, if_pos rfl] at h1 h2 ⊢
          exact ih bs cs h1 h2
        · subst hab
          simp only [charListLe, if_pos rfl] at h1
          simp only [charListLe, if_neg hbc] at h2
          simp only [charListLe, if_neg hbc]
          exact h2
        · subst hbc
          simp only [charListLe, if_neg hab] at h1
          simp only [charListLe, if_neg hab]
          exact h1
        · simp only [charListLe, if_neg hab] at h1
          simp only [charListLe, if_neg hbc] at h2
          have hlt : a < c := lt_trans (of_decide_eq_true h1) (of_decide_eq_true h2)
          simp [charListLe, ne_of_lt hlt, hlt]

theorem charListLe_antisymm : ∀ as bs : List Char,
    charListLe as bs = true → charListLe bs as = true → as = bs := by
  intro as
  induction as with
  | nil =>
    intro bs h1 h2
    cases bs with
    | nil => rfl
    | cons b bs => simp [charListLe] at h2
  | cons a as ih =>
    intro bs h1 h2
    cases bs with
    | nil => simp [charListLe] at h1
    | cons b bs =>
      by_cases hab : a = b
      · subst hab
        simp only [charListLe, if_pos rfl] at h1 h2
        exact congrArg _ (ih bs h1 h2)
      · simp only [charListLe, if_neg hab] at h1
        simp only [charListLe, if_neg (Ne.symm hab)] at h2
        exact absurd (of_decide_eq_true h2) (lt_asymm (of_decide_eq_true h1))

theorem nameLe_trans {a b c : String × Fs} (h1 : nameLe a b = true)
    (h2 : nameLe b c = true) : nameLe a c = true :=
  charListLe_trans _ _ _ h1 h2

theorem nameLe_total (a b : String × Fs) : nameLe a b = true ∨ nameLe b a = true :=
  charListLe_total _ _

theorem nameLe_antisymm {a b : String × Fs} (h1 : nameLe a b = true)
    (h2 : nameLe b a = true) : a.1 = b.1 :=
  String.ext (charListLe_antisymm _ _ h1 h2)

theorem insertLe_pairwise (x : String × Fs) (l : List (String × Fs))
    (h : l.Pairwise (fun a b => nameLe a b = true)) :
    (insertLe x l).Pairwise (fun a b => nameLe a b = true) := by
  induction l with
  | nil => simp [insertLe]
  | cons y t ih =>
    rcases List.pairwise_cons.mp h with ⟨hy, ht⟩
    by_cases hyx : nameLe y x = true
    · rw [insertLe, if_pos hyx]
      refine List.pairwise_cons.mpr ⟨?_, ih ht⟩
      intro z hz
      rcases List.mem_cons.mp ((insertLe_perm x t).mem_iff.mp hz) with hz | hz
      · subst hz; exact hyx
      · exact hy z hz
    · rw [insertLe, if_neg hyx]
      have hxy : nameLe x y = true := by
        rcases nameLe_total y x with h' | h'
        · exact absurd h' hyx
        · exact h'
      refine List.pairwise_cons.mpr ⟨?_, h⟩
      intro z hz
      rcases List.mem_cons.mp hz with hz | hz
      · subst hz; exact hxy
      · exact nameLe_trans hxy (hy z hz)

theorem sortPairs_pairwise (l : List (String × Fs)) :
    (sortPairs l).Pairwise (fun a b => nameLe a b = true) := by
  induction l with
  | nil => simp [sortPairs]
  | cons x t ih => exact insertLe_pairwise x (sortPairs t) ih

/-- Two sorted lists of entries that are permutations of each other and have
no duplicate names are equal: the sibling order is canonical. -/
theorem sorted_perm_nodup_eq : ∀ l1 l2 : List (String × Fs), l1.Perm l2 →
    l1.Pairwise (fun a b => nameLe a b = true) →
    l2.Pairwise (fun a b => nameLe a b = true) →
    (l1.map Prod.fst).Nodup → l1 = l2 := by
  intro l1
  induction l1 with
  | nil => intro l2 hp _ _ _; exact (hp.symm.eq_nil).symm
  | cons a t1 ih =>
    intro l2 hp h1 h2 hnd
    cases l2 with
    | nil => exact absurd hp.eq_nil (by simp)
    | cons b t2 =>
      rcases List.pairwise_cons.mp h1 with ⟨ha, ht1⟩
      rcases List.pairwise_cons.mp h2 with ⟨hb, ht2⟩
      have hnd' : (a.1 :: t1.map Prod.fst).Nodup := by simpa using hnd
      rcases List.nodup_cons.mp hnd' with ⟨han, htn⟩
      have hab : a = b := by
        rcases List.mem_cons.mp (hp.mem_iff.mp (List.mem_cons_self a t1)) with h | h
        · exact h
        · rcases List.mem_cons.mp (hp.symm.mem_iff.mp (List.mem_cons_self b t2)) with h' | h'
          · exact h'.symm
          · exact absurd (nameLe_antisymm (ha b h') (hb a h) ▸ List.mem_map_of_mem Prod.fst h')
              han
      subst hab
      have hteq := ih t2 (hp.cons_inv) ht1 ht2 htn
      rw [hteq]

theorem sizeOf_filter_le {α} [SizeOf α] (p : α → Bool) (l : List α) :
    sizeOf (l.filter p) ≤ sizeOf l := by
  induction l with
  | nil => simp
  | cons a t ih =>
    by_cases h : p a
    · simp [List.filter_cons, h]; omega
    · simp [List.filter_cons, h]; omega

theorem sizeOf_perm_eq {α} [SizeOf α] {l1 l2 : List α} (h : l1.Perm l2) :
    sizeOf l1 = sizeOf l2 := by
  induction h with
  | nil => rfl
  | cons x _ ih => simp [ih]
  | swap x y l => simp; omega
  | trans _ _ ih1 ih2 => omega

theorem sizeOf_sortPairs_eq (l : List (String × Fs)) :
    sizeOf (sortPairs l) = sizeOf l :=
  sizeOf_perm_eq (sortPairs_perm l)

theorem sizeOf_visSort_le (children : List (String × Fs)) (a b c : List String) :
    sizeOf (visSort children a b c) ≤ sizeOf children :=
  le_trans (le_of_eq (sizeOf_sortPairs_eq _)) (sizeOf_filter_le _ _)

/-! ### Generic helper lemmas -/

theorem contains_iff_mem {l : List String} {a : String} :
    l.contains a = true ↔ a ∈ l :=
  List.elem_iff

/-- Dropping an entry the walker filters out does not change the walk. -/
theorem walk_drop {ignore_dirs ignore_files iexts : List String} {e : String × Fs}
    (h : keepEntry ignore_dirs ignore_files iexts e = false)
    (l1 l2 : List (String × Fs)) (rel : List String) (indent : String) :
    walk (l1 ++ e :: l2) rel indent ignore_dirs ignore_files iexts =
      walk (l1 ++ l2) rel indent ignore_dirs ignore_files iexts := by
  simp [walk, visSort, List.filter_append, List.filter_cons, h]

theorem keepEntry_false_of_ignoreMatch {ignore_dirs ignore_files iexts : List String}
    {e : String × Fs} (h : ignoreMatch ignore_dirs ignore_files iexts e = true) :
    keepEntry ignore_dirs ignore_files iexts e = false := by
  unfold keepEntry
  split
  · rfl
  · simp [h]

/-! ### C1: ignored entries contribute nothing -/

/-- **C1**: a directory whose name is on the directory-ignore list, and a
file whose full name is on the file-ignore list or whose extension matches
the compiled extension set, contributes no entry to the rendered tree text
and no path to the collected file list: the walk of a listing containing the
entry equals the walk with the entry removed, so nothing beneath an ignored
directory appears either. -/
theorem ignored_entry_contributes_nothing
    (ignore_dirs ignore_files : List String) (e : String × Fs)
    (l1 l2 : List (String × Fs)) (rel : List String) (indent : String)
    (h : (e.2.isDir = true ∧ e.1 ∈ ignore_dirs) ∨
         (e.2.isDir = false ∧
           (e.1 ∈ ignore_files ∨ extMatches (ignore_exts ignore_files) e.1 = true))) :
    walk (l1 ++ e :: l2) rel indent ignore_dirs ignore_files (ignore_exts ignore_files) =
      walk (l1 ++ l2) rel indent ignore_dirs ignore_files (ignore_exts ignore_files) := by
  apply walk_drop
  apply keepEntry_false_of_ignoreMatch
  unfold ignoreMatch
  rcases h with ⟨hd, hm⟩ | ⟨hd, hm⟩
  · simp [hd, hm]
  · rcases hm with hm | hm <;> simp [hd, hm]

/-- Witness for C1 at a concrete input: with `node_modules` ignored and
`*.js` unmatched, the subtree under `node_modules` vanishes from the walk. -/
theorem ignored_entry_contributes_nothing_witness :
    walk [("node_modules", Fs.dir [("x.js", Fs.file (some "js"))]),
          ("src", Fs.dir [("a.py", Fs.file (some "p"))])] [] ""
        ["node_modules"] [] (ignore_exts []) =
      walk [("src", Fs.dir [("a.py", Fs.file (some "p"))])] [] ""
        ["node_modules"] [] (ignore_exts []) :=
  ignored_entry_contributes_nothing ["node_modules"] []
    ("node_modules", Fs.dir [("x.js", Fs.file (some "js"))])
    [] [("src", Fs.dir [("a.py", Fs.file (some "p"))])] [] ""
    (Or.inl ⟨rfl, by simp⟩)

/-! ### C3: dotfile policy -/

/-- **C3**: during a directory listing, a child whose name starts with a dot
is dropped from the walk, except exactly the two literal names
`.env.example` and `.example.env`, which survive the dot check and remain
subject only to the remaining ignore checks. -/
theorem dotfile_policy
    (ignore_dirs ignore_files iexts : List String) (name : String) (node : Fs)
    (l1 l2 : List (String × Fs)) (rel : List String) (indent : String)
    (hdot : startsWithDot name = true) :
    (name ≠ ".env.example" → name ≠ ".example.env" →
      walk (l1 ++ (name, node) :: l2) rel indent ignore_dirs ignore_files iexts =
        walk (l1 ++ l2) rel indent ignore_dirs ignore_files iexts) ∧
    ((name = ".env.example" ∨ name = ".example.env") →
      keepEntry ignore_dirs ignore_files iexts (name, node) =
        !ignoreMatch ignore_dirs ignore_files iexts (name, node)) := by
  constructor
  · intro h1 h2
    apply walk_drop
    simp [keepEntry, hdot, h1, h2]
  · intro hex
    rcases hex with hex | hex <;> subst hex <;> simp [keepEntry]

/-- Witness for C3 at a concrete input: `.hidden` disappears from the walk,
while `.env.example` is kept exactly when the ignore lists allow it. -/
theorem dotfile_policy_witness :
    (walk [(".hidden", Fs.file (some "h")), ("a", Fs.file (some "x"))] [] "" [] [] [] =
      walk [("a", Fs.file (some "x"))] [] "" [] [] []) ∧
    keepEntry [] [] [] (".env.example", Fs.file none) =
      !ignoreMatch [] [] [] (".env.example", Fs.file none) := by
  constructor
  · exact (dotfile_policy [] [] [] ".hidden" (Fs.file (some "h"))
      [] [("a", Fs.file (some "x"))] [] "" rfl).1 (by decide) (by decide)
  · exact (dotfile_policy [] [] [] ".env.example" (Fs.file none)
      [] [] [] "" rfl).2 (Or.inl rfl)

/-! ### C9 and C2: the actual matching semantics of file-ignore specs -/

theorem extMatches_iff (ignore_files : List String) (name : String) :
    extMatches (ignore_exts ignore_files) name = true ↔
      ∃ ext, extOf name = some ext ∧
        ∃ e ∈ ignore_files, lowerStr ext = lowerStr (dropDot e) := by
  cases hx : extOf name with
  | none => simp [extMatches, hx]
  | some ext =>
    simp only [extMatches, hx, Option.some.injEq]
    rw [contains_iff_mem]
    simp only [ignore_exts, List.mem_map]
    constructor
    · rintro ⟨e, he, hl⟩
      exact ⟨ext, rfl, e, he, hl.symm⟩
    · rintro ⟨ext', hext', e, he, hl⟩
      cases hext'
      exact ⟨e, he, hl.symm⟩

/-- **C9**: for the walker's file-ignore check, a file is matched exactly
when its full name equals some list entry (case-sensitively), or its
extension, compared lowercased, equals that entry with an optional single
leading dot stripped and lowercased — so every entry also acts as a
case-insensitive extension pattern.  For a non-dot file, being dropped by
the walker is equivalent to this match. -/
theorem file_ignore_extension_semantics
    (ignore_dirs ignore_files : List String) (name : String) (c : Option String) :
    (ignoreMatch ignore_dirs ignore_files (ignore_exts ignore_files) (name, Fs.file c) = true ↔
      ∃ e ∈ ignore_files, name = e ∨
        ∃ ext, extOf name = some ext ∧ lowerStr ext = lowerStr (dropDot e)) ∧
    (startsWithDot name = false →
      (keepEntry ignore_dirs ignore_files (ignore_exts ignore_files) (name, Fs.file c) = false ↔
        ignoreMatch ignore_dirs ignore_files (ignore_exts ignore_files) (name, Fs.file c)
          = true)) := by
  constructor
  · rw [show ignoreMatch ignore_dirs ignore_files (ignore_exts ignore_files) (name, Fs.file c) =
        (ignore_files.contains name || extMatches (ignore_exts ignore_files) name) from rfl]
    constructor
    · intro h
      rcases Bool.or_eq_true_iff.mp h with h | h
      · exact ⟨name, contains_iff_mem.mp h, Or.inl rfl⟩
      · rcases (extMatches_iff ignore_files name).mp h with ⟨ext, hx, e, he, hl⟩
        exact ⟨e, he, Or.inr ⟨ext, hx, hl⟩⟩
    · rintro ⟨e, he, rfl | ⟨ext, hx, hl⟩⟩
      · exact Bool.or_eq_true_iff.mpr (Or.inl (contains_iff_mem.mpr he))
      · exact Bool.or_eq_true_iff.mpr
          (Or.inr ((extMatches_iff ignore_files name).mpr ⟨ext, hx, e, he, hl⟩))
  · intro hdot
    simp [keepEntry, hdot]

/-- Witness for C9: the literal-looking entry `Makefile` also ignores the
file `x.makefile` through the case-insensitive extension channel, and for
this non-dot file the walker drop is equivalent to the match. -/
theorem file_ignore_extension_semantics_witness :
    (ignoreMatch [] ["Makefile"] (ignore_exts ["Makefile"]) ("x.makefile", Fs.file none)
      = true) ∧
    (keepEntry [] ["Makefile"] (ignore_exts ["Makefile"]) ("x.makefile", Fs.file none)
        = false ↔
      ignoreMatch [] ["Makefile"] (ignore_exts ["Makefile"]) ("x.makefile", Fs.file none)
        = true) := by
  have h := file_ignore_extension_semantics [] ["Makefile"] "x.makefile" none
  constructor
  · exact h.1.mpr ⟨"Makefile", by simp, Or.inr ⟨"makefile", by decide, by decide⟩⟩
  · exact h.2 (by decide)

/-- **C2 counterexample**: the code performs no glob handling at all.  The
shell glob `*.py` fails to match `a.py` (the file is kept and collected by
the walker), and the glob-invalid spec `[` is consumed without any error:
the builder returns a normal document. -/
theorem glob_claim_counterexample :
    keepEntry [] ["*.py"] (ignore_exts ["*.py"]) ("a.py", Fs.file none) = true ∧
    (walk [("a.py", Fs.file (some "code"))] [] "" [] ["*.py"] (ignore_exts ["*.py"])).2
      = [["a.py"]] ∧
    build_prompt_internal "proj" [] [] [] ["["] false =
      "<context>\n<directory_tree>\nproj/\n</directory_tree>\n\n<files>\n\n</files>\n</context>"
    := by
  refine ⟨by decide, ?_, ?_⟩
  · simp [walk, visSort, sortPairs, insertLe, renderW, keepEntry, ignoreMatch, extMatches,
      startsWithDot, ignore_exts, lowerStr, dropDot, extOf, splitDotsAux]
  · simp [build_prompt_internal, collect_dirs, collectGo, sortPairs, prompt_ignores,
      walk, visSort, renderW, blocksFor, ignore_exts]

/-- **C2 (amended)**: there is no glob compilation step and no pattern
validation: any spec list (including glob-invalid strings) is consumed
as-is, and a spec matches a file only through exact full-name equality or
the case-insensitive extension comparison with an optional leading dot
stripped — never through shell-glob semantics. -/
theorem ignore_spec_matching_no_glob
    (ignore_dirs ignore_files : List String) (name : String) (c : Option String) :
    ignoreMatch ignore_dirs ignore_files (ignore_exts ignore_files) (name, Fs.file c) = true ↔
      (∃ e ∈ ignore_files, name = e) ∨
      (∃ e ∈ ignore_files, ∃ ext, extOf name = some ext ∧
        lowerStr ext = lowerStr (dropDot e)) := by
  rw [show ignoreMatch ignore_dirs ignore_files (ignore_exts ignore_files) (name, Fs.file c) =
      (ignore_files.contains name || extMatches (ignore_exts ignore_files) name) from rfl]
  constructor
  · intro h
    rcases Bool.or_eq_true_iff.mp h with h | h
    · exact Or.inl ⟨name, contains_iff_mem.mp h, rfl⟩
    · rcases (extMatches_iff ignore_files name).mp h with ⟨ext, hx, e, he, hl⟩
      exact Or.inr ⟨e, he, ext, hx, hl⟩
  · rintro (⟨e, he, rfl⟩ | ⟨e, he, ext, hx, hl⟩)
    · exact Bool.or_eq_true_iff.mpr (Or.inl (contains_iff_mem.mpr he))
    · exact Bool.or_eq_true_iff.mpr
        (Or.inr ((extMatches_iff ignore_files name).mpr ⟨ext, hx, e, he, hl⟩))

/-! ### C5: filter semantics of the assembly loop -/

theorem empty_append_str (s : String) : "" ++ s = s := by
  cases s
  rfl

/-- **C5**: with an empty filter list every collected file gets a block;
with a non-empty filter list a collected file gets a block exactly when the
rendered relative path ends with one of the filter strings (plain suffix
match).  The emitted block sequence is exactly the blocks of the filtered
sublist, in order. -/
theorem assemble_filter_semantics (filter : List String) (files : List (List String))
    (root : List (String × Fs)) :
    (filter = [] → files.filter (includeFileB filter) = files) ∧
    (∀ rel, rel ∈ files.filter (includeFileB filter) ↔
        rel ∈ files ∧
          (filter = [] ∨ ∃ f ∈ filter, strEndsWith (renderPath rel) f = true)) ∧
    blocksFor root filter files = blocksFor root [] (files.filter (includeFileB filter)) := by
  refine ⟨?_, ?_, ?_⟩
  · intro h
    subst h
    simp [List.filter_eq_self, includeFileB]
  · intro rel
    rw [List.mem_filter]
    simp [includeFileB, List.isEmpty_iff, List.any_eq_true]
  · induction files with
    | nil => rfl
    | cons rel rest ih =>
      by_cases h : includeFileB filter rel = true
      · simp only [blocksFor, h, if_pos trivial, List.filter_cons, ih]
        have : includeFileB [] rel = true := by simp [includeFileB]
        simp [blocksFor, this]
      · simp only [blocksFor, h, Bool.false_eq_true, if_false, List.filter_cons, ih]
        rw [empty_append_str]

/-- Witness for C5: the filter `py` keeps `src/a.py` and drops `b.rs`. -/
theorem assemble_filter_semantics_witness :
    (["src", "a.py"] ∈ [["src", "a.py"], ["b.rs"]].filter (includeFileB ["py"])) ∧
    ¬ (["b.rs"] ∈ [["src", "a.py"], ["b.rs"]].filter (includeFileB ["py"])) := by
  have h := assemble_filter_semantics ["py"] [["src", "a.py"], ["b.rs"]] []
  constructor
  · exact (h.2.1 ["src", "a.py"]).mpr
      ⟨by simp, Or.inr ⟨"py", by simp, by decide⟩⟩
  · intro hmem
    rcases ((h.2.1 ["b.rs"]).mp hmem).2 with h' | ⟨f, hf, h'⟩
    · exact absurd h' (by decide)
    · rcases List.mem_singleton.mp hf with rfl
      exact absurd h' (by decide)

/-! ### C6: content placeholders -/

theorem strTrim_eq_empty_iff (s : String) :
    strTrim s = "" ↔ s.data.all Char.isWhitespace = true := by
  rw [String.ext_iff]
  show (((s.data.dropWhile Char.isWhitespace).reverse.dropWhile
      Char.isWhitespace).reverse : List Char) = ([] : List Char) ↔ _
  rw [List.reverse_eq_nil_iff, List.dropWhile_eq_nil_iff, List.all_eq_true]
  constructor
  · intro h x hx
    have hsplit := List.takeWhile_append_dropWhile (p := Char.isWhitespace) (l := s.data)
    rw [← hsplit] at hx
    rcases List.mem_append.mp hx with hx | hx
    · exact List.mem_takeWhile_imp hx
    · exact h x (List.mem_reverse.mpr hx)
  · intro h x hx
    exact h x (List.dropWhile_subset _ (List.mem_reverse.mp hx))

/-- **C6**: an unreadable file yields the literal placeholder
`BINARY OR UNREADABLE` in its content slot instead of failing (the assembly
loop is total), a readable file whose content is empty or all-whitespace
yields `EMPTY FILE`, and any other readable content is passed through
unchanged. -/
theorem content_placeholders (c : Option String) :
    (c = none → contentFor c = "BINARY OR UNREADABLE") ∧
    (∀ s, c = some s → s.data.all Char.isWhitespace = true → contentFor c = "EMPTY FILE") ∧
    (∀ s, c = some s → s.data.all Char.isWhitespace = false → contentFor c = s) := by
  refine ⟨?_, ?_, ?_⟩
  · rintro rfl
    decide
  · rintro s rfl hws
    have ht : strTrim s = "" := (strTrim_eq_empty_iff s).mpr hws
    simp [contentFor, ht]
  · rintro s rfl hws
    have ht : ¬ strTrim s = "" := by
      intro h
      rw [(strTrim_eq_empty_iff s).mp h] at hws
      cases hws
    simp [contentFor, ht]

/-- Witness for C6 at concrete contents: a failed read, an all-whitespace
file and a normal file. -/
theorem content_placeholders_witness :
    contentFor none = "BINARY OR UNREADABLE" ∧
    contentFor (some "  \n ") = "EMPTY FILE" ∧
    contentFor (some "x") = "x" := by
  refine ⟨(content_placeholders none).1 rfl,
    (content_placeholders (some "  \n ")).2.1 "  \n " rfl (by decide),
    (content_placeholders (some "x")).2.2 "x" rfl (by decide)⟩

/-! ### String suffix and stem lemmas, for the cleanup claims -/

theorem dropFrontQ_append (p l : List Char) : dropFrontQ (p ++ l) p = some l := by
  induction p with
  | nil => simp [dropFrontQ]
  | cons c p ih => simp [dropFrontQ, ih]

theorem dropFrontQ_some : ∀ (p l r : List Char), dropFrontQ l p = some r → l = p ++ r := by
  intro p
  induction p with
  | nil =>
    intro l r h
    cases l <;> simpa [dropFrontQ] using h
  | cons c p ih =>
    intro l r h
    cases l with
    | nil => simp [dropFrontQ] at h
    | cons d l =>
      rw [dropFrontQ] at h
      split at h
      · next heq => rw [heq, ih l r h]; rfl
      · cases h

theorem stripSuffixQ_eq_some_iff (s suf y : String) :
    stripSuffixQ s suf = some y ↔ s = y ++ suf := by
  constructor
  · intro h
    rcases Option.map_eq_some'.mp h with ⟨r, hr, hy⟩
    have hs : s.data.reverse = suf.data.reverse ++ r := dropFrontQ_some _ _ _ hr
    apply String.ext
    rw [String.data_append]
    have := congrArg List.reverse hs
    simp at this
    rw [this, ← hy]
  · rintro rfl
    have : (y ++ suf).data.reverse = suf.data.reverse ++ y.data.reverse := by
      simp
    rw [stripSuffixQ, this, dropFrontQ_append]
    simp

theorem strEndsWith_iff (s suf : String) :
    strEndsWith s suf = true ↔ ∃ y, s = y ++ suf := by
  rw [strEndsWith, Option.isSome_iff_exists]
  constructor
  · rintro ⟨y, hy⟩
    exact ⟨y, (stripSuffixQ_eq_some_iff s suf y).mp hy⟩
  · rintro ⟨y, hy⟩
    exact ⟨y, (stripSuffixQ_eq_some_iff s suf y).mpr hy⟩

theorem splitDotsAux_of_no_dot : ∀ l : List Char, (∀ c ∈ l, c ≠ '.') →
    splitDotsAux l = none := by
  intro l
  induction l with
  | nil => intro _; rfl
  | cons c t ih =>
    intro h
    rw [splitDotsAux, ih (fun x hx => h x (List.mem_cons_of_mem c hx))]
    simp [h c (List.mem_cons_self c t)]

theorem splitDotsAux_last_dot : ∀ (l m : List Char), (∀ c ∈ m, c ≠ '.') →
    splitDotsAux (l ++ '.' :: m) = some (l, m) := by
  intro l m hm
  induction l with
  | nil =>
    rw [List.nil_append, splitDotsAux, splitDotsAux_of_no_dot m hm]
    simp
  | cons c t ih =>
    rw [List.cons_append, splitDotsAux, ih]

theorem fileStem_append_prompt_txt (y : String) :
    fileStem (y ++ "_prompt.txt") = y ++ "_prompt" := by
  have hne : y.data ++ "_prompt".data ≠ [] := by
    intro h
    rcases List.append_eq_nil.mp h with ⟨_, h2⟩
    cases h2
  cases hfull : y.data ++ "_prompt".data with
  | nil => exact absurd hfull hne
  | cons c ft =>
    have hdata : (y ++ "_prompt.txt").data = c :: (ft ++ '.' :: "txt".data) := by
      rw [String.data_append,
        show ("_prompt.txt").data = "_prompt".data ++ '.' :: "txt".data from rfl,
        ← List.append_assoc, hfull, List.cons_append]
    have hsplit : splitDotsAux (ft ++ '.' :: "txt".data) = some (ft, "txt".data) :=
      splitDotsAux_last_dot ft "txt".data (by decide)
    simp only [fileStem, hdata, hsplit]
    apply String.ext
    rw [String.data_append]
    show c :: ft = y.data ++ "_prompt".data
    rw [hfull]

/-- If a file name ends in `_prompt.txt`, the deletion test of the clean
branch reduces to: the name minus that suffix is a valid directory name. -/
theorem shouldDelete_characterization (valid : List String) (y : String) :
    shouldDelete valid (y ++ "_prompt.txt") = valid.contains y := by
  rw [shouldDelete, fileStem_append_prompt_txt y,
    (stripSuffixQ_eq_some_iff (y ++ "_prompt") "_prompt" y).mpr rfl]

theorem getLastD_cons_irrel {α} (a : α) (t : List α) (d1 d2 : α) :
    (a :: t).getLastD d1 = (a :: t).getLastD d2 := by
  rw [List.getLastD_cons, List.getLastD_cons]

/-- Every path collected by the prompt scanner is nonempty and its file name
ends with `_prompt.txt`. -/
theorem find_all_prompts_shape (children : List (String × Fs)) :
    ∀ p ∈ find_all_prompts children,
      p ≠ [] ∧ strEndsWith (p.getLastD "") "_prompt.txt" = true := by
  match children with
  | [] => intro p hp; simp [find_all_prompts] at hp
  | (name, node) :: rest =>
    intro p hp
    cases node with
    | dir ch =>
      rw [find_all_prompts] at hp
      rcases List.mem_append.mp hp with hp | hp
      · rcases List.mem_map.mp hp with ⟨q, hq, rfl⟩
        rcases find_all_prompts_shape ch q hq with ⟨hne, hend⟩
        refine ⟨by simp, ?_⟩
        rw [List.getLastD_cons]
        cases q with
        | nil => exact absurd rfl hne
        | cons a t => rw [getLastD_cons_irrel a t name ""]; exact hend
      · exact find_all_prompts_shape rest p hp
    | file c =>
      rw [find_all_prompts] at hp
      split at hp
      · next hend =>
        rcases List.mem_cons.mp hp with rfl | hp
        · exact ⟨by simp, by simpa using hend⟩
        · exact find_all_prompts_shape rest p hp
      · exact find_all_prompts_shape rest p hp
termination_by sizeOf children
decreasing_by
  all_goals simp
  all_goals omega

theorem str_append_cancel_right {y y' s : String} (h : y ++ s = y' ++ s) : y = y' := by
  apply String.ext
  have hd := congrArg String.data h
  rw [String.data_append, String.data_append] at hd
  exact List.append_cancel_right hd

/-- Characterization of the deletion pass: a found candidate is removed
exactly when its file name splits as `<base>_prompt.txt` with `<base>` a
valid directory name. -/
theorem mem_cleanupDeleted_iff (root : List (String × Fs)) (rootName : String)
    (ignore_dirs : List String) (p : List String)
    (hp : p ∈ find_all_prompts root) :
    p ∈ cleanupDeleted root rootName ignore_dirs ↔
      ∃ y, p.getLastD "" = y ++ "_prompt.txt" ∧
        y ∈ validNames rootName root ignore_dirs := by
  rw [cleanupDeleted, List.mem_filter]
  rcases find_all_prompts_shape root p hp with ⟨hne, hend⟩
  rcases (strEndsWith_iff _ _).mp hend with ⟨y0, hy0⟩
  constructor
  · rintro ⟨_, hsd⟩
    rw [hy0, shouldDelete_characterization] at hsd
    exact ⟨y0, hy0, contains_iff_mem.mp hsd⟩
  · rintro ⟨y, hy, hmem⟩
    have hyy : y = y0 := str_append_cancel_right (hy.symm.trans hy0)
    refine ⟨hp, ?_⟩
    rw [hy0, shouldDelete_characterization]
    exact contains_iff_mem.mpr (hyy ▸ hmem)

/-! ### C8: the deletion criterion of cleanup -/

/-- **C8**: cleanup deletes a found `*_prompt.txt` file exactly when the
base name obtained by stripping the `_prompt.txt` suffix lies in the
valid-directory-name set (the collected non-ignored subdirectory names
seeded with the root's own name); a found candidate whose base matches no
valid name is never deleted, at any depth. -/
theorem cleanup_deletion_criterion (root : List (String × Fs)) (rootName : String)
    (ignore_dirs : List String) (p : List String)
    (hp : p ∈ find_all_prompts root) :
    p ∈ cleanupDeleted root rootName ignore_dirs ↔
      ∃ y, p.getLastD "" = y ++ "_prompt.txt" ∧
        y ∈ validNames rootName root ignore_dirs :=
  mem_cleanupDeleted_iff root rootName ignore_dirs p hp

/-- Witness for C8, the scenario of the specification: with root name
`proj` and no `oldname` directory, `proj_prompt.txt` is removed and
`oldname_prompt.txt` is not. -/
theorem cleanup_deletion_criterion_witness :
    ["proj_prompt.txt"] ∈ cleanupDeleted
        [("proj_prompt.txt", Fs.file (some "old")),
         ("oldname_prompt.txt", Fs.file (some "old"))] "proj" [] ∧
    ["oldname_prompt.txt"] ∉ cleanupDeleted
        [("proj_prompt.txt", Fs.file (some "old")),
         ("oldname_prompt.txt", Fs.file (some "old"))] "proj" [] := by
  have hf1 : ["proj_prompt.txt"] ∈ find_all_prompts
      [("proj_prompt.txt", Fs.file (some "old")),
       ("oldname_prompt.txt", Fs.file (some "old"))] := by
    simp [find_all_prompts,
      show strEndsWith "proj_prompt.txt" "_prompt.txt" = true from rfl,
      show strEndsWith "oldname_prompt.txt" "_prompt.txt" = true from rfl]
  have hf2 : ["oldname_prompt.txt"] ∈ find_all_prompts
      [("proj_prompt.txt", Fs.file (some "old")),
       ("oldname_prompt.txt", Fs.file (some "old"))] := by
    simp [find_all_prompts,
      show strEndsWith "proj_prompt.txt" "_prompt.txt" = true from rfl,
      show strEndsWith "oldname_prompt.txt" "_prompt.txt" = true from rfl]
  constructor
  · exact (cleanup_deletion_criterion _ "proj" [] _ hf1).mpr
      ⟨"proj", by decide, by simp [validNames]⟩
  · intro hdel
    rcases (cleanup_deletion_criterion _ "proj" [] _ hf2).mp hdel with ⟨y, hy, hv⟩
    have hy' : y ++ "_prompt.txt" = "oldname" ++ "_prompt.txt" := by
      rw [← hy]; decide
    have hyo : y = "oldname" := str_append_cancel_right hy'
    subst hyo
    rw [validNames] at hv
    rcases List.mem_cons.mp hv with h | h
    · exact absurd h (by decide)
    · simp [collect_all_sub_dir_names] at h

/-! ### C10: prompts under ignored ancestors are found but never deleted -/

/-- **C10**: the valid-name collection pass skips an ignored or dot
directory entirely (it contributes no names, so nothing beneath it becomes
valid), while the prompt scanner still descends into it; hence a
`<b>_prompt.txt` file below such a directory is found, and as long as `b`
is not a valid name elsewhere, it is never deleted. -/
theorem cleanup_ignored_ancestor
    (ignore_dirs : List String) (rootName dname : String)
    (ch rest : List (String × Fs)) (p : List String) (b : String)
    (hign : startsWithDot dname = true ∨ dname ∈ ignore_dirs)
    (hp : p ∈ find_all_prompts ch)
    (hlast : p.getLastD "" = b ++ "_prompt.txt")
    (hb : b ∉ validNames rootName ((dname, Fs.dir ch) :: rest) ignore_dirs) :
    (dname :: p) ∈ find_all_prompts ((dname, Fs.dir ch) :: rest) ∧
    collect_all_sub_dir_names ((dname, Fs.dir ch) :: rest) ignore_dirs =
      collect_all_sub_dir_names rest ignore_dirs ∧
    (dname :: p) ∉ cleanupDeleted ((dname, Fs.dir ch) :: rest) rootName ignore_dirs := by
  have hfind : (dname :: p) ∈ find_all_prompts ((dname, Fs.dir ch) :: rest) := by
    rw [find_all_prompts]
    exact List.mem_append.mpr (Or.inl (List.mem_map.mpr ⟨p, hp, rfl⟩))
  have hskip : collect_all_sub_dir_names ((dname, Fs.dir ch) :: rest) ignore_dirs =
      collect_all_sub_dir_names rest ignore_dirs := by
    have hcond : (!startsWithDot dname && !ignore_dirs.contains dname) = false := by
      rcases hign with h | h
      · simp [h]
      · have hc : ignore_dirs.contains dname = true := contains_iff_mem.mpr h
        rw [hc]
        simp
    simp only [collect_all_sub_dir_names, hcond, Bool.false_eq_true, if_false]
  refine ⟨hfind, hskip, ?_⟩
  intro hdel
  rcases find_all_prompts_shape ch p hp with ⟨hne, _⟩
  have hlast2 : (dname :: p).getLastD "" = b ++ "_prompt.txt" := by
    rw [List.getLastD_cons]
    cases p with
    | nil => exact absurd rfl hne
    | cons a t => rw [getLastD_cons_irrel a t dname ""]; exact hlast
  rcases (mem_cleanupDeleted_iff _ rootName ignore_dirs _ hfind).mp hdel with ⟨y, hy, hv⟩
  have hyb : y = b := str_append_cancel_right (hy.symm.trans hlast2)
  subst hyb
  exact hb hv

/-- Witness for C10: `node_modules/sub_prompt.txt` is found by the scanner
but survives cleanup because `sub` only exists inside the ignored
`node_modules`. -/
theorem cleanup_ignored_ancestor_witness :
    ["node_modules", "sub_prompt.txt"] ∈ find_all_prompts
        [("node_modules", Fs.dir [("sub", Fs.dir []),
          ("sub_prompt.txt", Fs.file (some "x"))])] ∧
    ["node_modules", "sub_prompt.txt"] ∉ cleanupDeleted
        [("node_modules", Fs.dir [("sub", Fs.dir []),
          ("sub_prompt.txt", Fs.file (some "x"))])] "proj" ["node_modules"] := by
  have h := cleanup_ignored_ancestor ["node_modules"] "proj" "node_modules"
    [("sub", Fs.dir []), ("sub_prompt.txt", Fs.file (some "x"))] []
    ["sub_prompt.txt"] "sub"
    (Or.inr (by simp))
    (by simp [find_all_prompts,
      show strEndsWith "sub_prompt.txt" "_prompt.txt" = true from rfl])
    (by decide)
    (by
      intro hv
      rw [validNames] at hv
      rcases List.mem_cons.mp hv with h | h
      · exact absurd h (by decide)
      · simp [collect_all_sub_dir_names, startsWithDot] at h)
  exact ⟨h.1, h.2.2⟩

/-! ### C7: the generated output file is auto-excluded -/

theorem collectGo_cons_file (n : String) (c : Option String)
    (rest : List (String × Fs)) (ign : List String) :
    collectGo ((n, Fs.file c) :: rest) ign = collectGo rest ign := by
  rw [collectGo]
  split
  · rfl
  · rfl

theorem collectGo_cons_congr (e : String × Fs) {l1 l2 : List (String × Fs)} (ign : List String)
    (h : collectGo l1 ign = collectGo l2 ign) :
    collectGo (e :: l1) ign = collectGo (e :: l2) ign := by
  obtain ⟨m, node⟩ := e
  cases node with
  | file c => rw [collectGo_cons_file, collectGo_cons_file, h]
  | dir ch =>
    rw [collectGo]
    conv_rhs => rw [collectGo]
    split
    · exact h
    · split
      · exact h
      · rw [h]

theorem collectGo_insert_file (n : String) (c : Option String) :
    ∀ (l : List (String × Fs)) (ign : List String),
      collectGo (insertLe (n, Fs.file c) l) ign = collectGo l ign := by
  intro l
  induction l with
  | nil =>
    intro ign
    show collectGo [(n, Fs.file c)] ign = collectGo [] ign
    exact collectGo_cons_file n c [] ign
  | cons y t ih =>
    intro ign
    by_cases hc : nameLe y (n, Fs.file c) = true
    · rw [insertLe, if_pos hc]
      exact collectGo_cons_congr y ign (ih ign)
    · rw [insertLe, if_neg hc]
      exact collectGo_cons_file n c (y :: t) ign

theorem collect_dirs_cons_file (n : String) (c : Option String)
    (root : List (String × Fs)) (ign : List String) :
    collect_dirs ((n, Fs.file c) :: root) ign = collect_dirs root ign := by
  rw [collect_dirs, collect_dirs, sortPairs]
  exact collectGo_insert_file n c (sortPairs root) ign

theorem renderW_paths_head_aux : ∀ (N : Nat) (entries : List (String × Fs))
    (rel : List String) (ind : String) (idirs ifiles iexts : List String),
    sizeOf entries ≤ N →
    ∀ p ∈ (renderW entries rel ind idirs ifiles iexts).2,
      ∃ n s, n ∈ entries.map Prod.fst ∧ p = rel ++ n :: s := by
  intro N
  induction N with
  | zero =>
    intro entries rel ind idirs ifiles iexts hN p hp
    cases entries with
    | nil => simp [renderW] at hp
    | cons e rest => exfalso; simp at hN
  | succ N ih =>
    intro entries rel ind idirs ifiles iexts hN p hp
    cases entries with
    | nil => simp [renderW] at hp
    | cons e rest =>
      obtain ⟨name, node⟩ := e
      have hrest : sizeOf rest ≤ N := by simp at hN; omega
      cases node with
      | dir ch =>
        have hch : sizeOf (visSort ch idirs ifiles iexts) ≤ N := by
          have hle := sizeOf_visSort_le ch idirs ifiles iexts
          simp at hN; omega
        simp only [renderW] at hp
        rcases List.mem_append.mp hp with hp | hp
        · rcases ih _ (rel ++ [name]) _ idirs ifiles iexts hch p hp with ⟨q, s, _, rfl⟩
          exact ⟨name, q :: s, by simp, by simp⟩
        · rcases ih rest rel ind idirs ifiles iexts hrest p hp with ⟨q, s, hq, rfl⟩
          refine ⟨q, s, ?_, rfl⟩
          simp [List.mem_map] at hq ⊢
          exact Or.inr hq
      | file cc =>
        simp only [renderW] at hp
        rcases List.mem_cons.mp hp with rfl | hp
        · exact ⟨name, [], by simp, rfl⟩
        · rcases ih rest rel ind idirs ifiles iexts hrest p hp with ⟨q, s, hq, rfl⟩
          refine ⟨q, s, ?_, rfl⟩
          simp [List.mem_map] at hq ⊢
          exact Or.inr hq

/-- Every path produced by the render loop extends the current prefix with
the name of one of the rendered entries. -/
theorem renderW_paths_head (entries : List (String × Fs)) (rel : List String) (ind : String)
    (idirs ifiles iexts : List String) :
    ∀ p ∈ (renderW entries rel ind idirs ifiles iexts).2,
      ∃ n s, n ∈ entries.map Prod.fst ∧ p = rel ++ n :: s :=
  renderW_paths_head_aux (sizeOf entries) entries rel ind idirs ifiles iexts (le_refl _)

theorem mem_of_mem_visSort {x : String × Fs} {l : List (String × Fs)}
    {a b c : List String} (h : x ∈ visSort l a b c) : x ∈ l :=
  (List.mem_filter.mp ((sortPairs_perm _).mem_iff.mp h)).1

theorem readFile_cons_ne {fname : String} {node : Fs} {root : List (String × Fs)}
    {n : String} {s : List String} (h : ¬ n = fname) :
    readFile ((fname, node) :: root) (n :: s) = readFile root (n :: s) := by
  have hbeq : (n == fname) = false := beq_eq_false_iff_ne.mpr h
  cases s with
  | nil => simp [readFile, List.lookup, hbeq]
  | cons a t => simp [readFile, List.lookup, hbeq]

theorem blocksFor_congr_root {r1 r2 : List (String × Fs)} (filter : List String)
    (files : List (List String)) (h : ∀ rel ∈ files, readFile r1 rel = readFile r2 rel) :
    blocksFor r1 filter files = blocksFor r2 filter files := by
  induction files with
  | nil => rfl
  | cons rel rest ih =>
    rw [blocksFor, blocksFor, fileBlock, fileBlock, h rel (List.mem_cons_self rel rest),
      ih (fun q hq => h q (List.mem_cons_of_mem rel hq))]

/-- **C7**: generation adds `<name>_prompt.txt` to the file-ignore list for
the root's name and every collected subdirectory name, so running
generation again on the same tree with the previous output file present at
the root produces exactly the same output: the old output file is never
ingested. -/
theorem prompt_output_auto_excluded
    (base : String) (root : List (String × Fs))
    (filter ignore_dirs ignore_files : List String) (tree_only : Bool) (c : Option String)
    (hfresh : (base ++ "_prompt.txt") ∉ root.map Prod.fst) :
    ((base ++ "_prompt.txt") ∈ prompt_ignores base root ignore_dirs ∧
      ∀ d ∈ collect_dirs root ignore_dirs,
        (d ++ "_prompt.txt") ∈ prompt_ignores base root ignore_dirs) ∧
    build_prompt_internal base ((base ++ "_prompt.txt", Fs.file c) :: root)
        filter ignore_dirs ignore_files tree_only =
      build_prompt_internal base root filter ignore_dirs ignore_files tree_only := by
  have hcd : collect_dirs ((base ++ "_prompt.txt", Fs.file c) :: root) ignore_dirs =
      collect_dirs root ignore_dirs := collect_dirs_cons_file _ _ _ _
  have hpi : prompt_ignores base ((base ++ "_prompt.txt", Fs.file c) :: root) ignore_dirs =
      prompt_ignores base root ignore_dirs := by
    rw [prompt_ignores, prompt_ignores, hcd]
  have hmem1 : (base ++ "_prompt.txt") ∈ prompt_ignores base root ignore_dirs :=
    List.mem_map.mpr ⟨base, List.mem_cons_self _ _, rfl⟩
  have hkeep : keepEntry ignore_dirs
      (ignore_files ++ prompt_ignores base root ignore_dirs) (ignore_exts ignore_files)
      (base ++ "_prompt.txt", Fs.file c) = false := by
    apply keepEntry_false_of_ignoreMatch
    have hc : (ignore_files ++ prompt_ignores base root ignore_dirs).contains
        (base ++ "_prompt.txt") = true :=
      contains_iff_mem.mpr (List.mem_append.mpr (Or.inr hmem1))
    have hrw : ignoreMatch ignore_dirs
        (ignore_files ++ prompt_ignores base root ignore_dirs) (ignore_exts ignore_files)
        (base ++ "_prompt.txt", Fs.file c) =
        ((ignore_files ++ prompt_ignores base root ignore_dirs).contains
          (base ++ "_prompt.txt") ||
          extMatches (ignore_exts ignore_files) (base ++ "_prompt.txt")) := rfl
    rw [hrw, hc, Bool.true_or]
  have hwalk : walk ((base ++ "_prompt.txt", Fs.file c) :: root) [] "" ignore_dirs
      (ignore_files ++ prompt_ignores base root ignore_dirs) (ignore_exts ignore_files) =
      walk root [] "" ignore_dirs
      (ignore_files ++ prompt_ignores base root ignore_dirs) (ignore_exts ignore_files) :=
    walk_drop hkeep [] root [] ""
  refine ⟨⟨hmem1, fun d hd => List.mem_map.mpr ⟨d, List.mem_cons_of_mem _ hd, rfl⟩⟩, ?_⟩
  have hblocks : blocksFor ((base ++ "_prompt.txt", Fs.file c) :: root) filter
      (walk root [] "" ignore_dirs
        (ignore_files ++ prompt_ignores base root ignore_dirs)
        (ignore_exts ignore_files)).2 =
      blocksFor root filter
      (walk root [] "" ignore_dirs
        (ignore_files ++ prompt_ignores base root ignore_dirs)
        (ignore_exts ignore_files)).2 := by
    apply blocksFor_congr_root
    intro rel hrel
    rcases renderW_paths_head _ [] "" _ _ _ rel hrel with ⟨n, s, hn, rfl⟩
    rcases List.mem_map.mp hn with ⟨x, hx, rfl⟩
    have hxr : x ∈ root := mem_of_mem_visSort hx
    have hne : ¬ x.1 = base ++ "_prompt.txt" := by
      intro he
      exact hfresh (he ▸ List.mem_map_of_mem Prod.fst hxr)
    exact readFile_cons_ne hne
  simp only [build_prompt_internal, hpi, hwalk, hblocks]

/-- Witness for C7: regenerating over a tree that already contains
`proj_prompt.txt` at the root reproduces the first run's output exactly. -/
theorem prompt_output_auto_excluded_witness :
    ("proj" ++ "_prompt.txt") ∈
      prompt_ignores "proj" [("src", Fs.dir [("a.py", Fs.file (some "x"))])] [] ∧
    build_prompt_internal "proj"
        (("proj" ++ "_prompt.txt", Fs.file (some "previous run")) ::
          [("src", Fs.dir [("a.py", Fs.file (some "x"))])])
        [] [] [] false =
      build_prompt_internal "proj" [("src", Fs.dir [("a.py", Fs.file (some "x"))])]
        [] [] [] false := by
  have h := prompt_output_auto_excluded "proj"
    [("src", Fs.dir [("a.py", Fs.file (some "x"))])] [] [] [] false
    (some "previous run") (by decide)
  exact ⟨h.1.1, h.2⟩

/-! ### C4: sibling order and independence from enumeration order -/

theorem normList_eq_map (l : List (String × Fs)) :
    normList l = l.map (fun p => (p.1, normFs p.2)) := by
  induction l with
  | nil => rfl
  | cons p rest ih =>
    obtain ⟨n, t⟩ := p
    rw [normList, ih]
    rfl

theorem normList_map_fst (l : List (String × Fs)) :
    (normList l).map Prod.fst = l.map Prod.fst := by
  rw [normList_eq_map, List.map_map]
  rfl

theorem keepEntry_normFs (a b c : List String) (n : String) (t : Fs) :
    keepEntry a b c (n, normFs t) = keepEntry a b c (n, t) := by
  cases t <;> rfl

theorem filter_normList (a b c : List String) (l : List (String × Fs)) :
    (normList l).filter (keepEntry a b c) = normList (l.filter (keepEntry a b c)) := by
  induction l with
  | nil => rfl
  | cons p rest ih =>
    obtain ⟨n, t⟩ := p
    rw [normList, List.filter_cons, List.filter_cons, keepEntry_normFs]
    by_cases h : keepEntry a b c (n, t) = true
    · rw [if_pos (by simp [h]), if_pos (by simp [h]), normList, ih]
    · rw [if_neg (by simp [h]), if_neg (by simp [h]), ih]

theorem nameLe_normFs (n : String) (t : Fs) (m : String) (u : Fs) :
    nameLe (n, normFs t) (m, normFs u) = nameLe (n, t) (m, u) := rfl

theorem insertLe_normList (n : String) (t : Fs) (l : List (String × Fs)) :
    insertLe (n, normFs t) (normList l) = normList (insertLe (n, t) l) := by
  induction l with
  | nil => rfl
  | cons p rest ih =>
    obtain ⟨m, u⟩ := p
    rw [normList, insertLe, insertLe, nameLe_normFs]
    by_cases h : nameLe (m, u) (n, t) = true
    · rw [if_pos h, if_pos h, ih, normList]
    · rw [if_neg h, if_neg h, normList, normList]

theorem sortPairs_normList (l : List (String × Fs)) :
    sortPairs (normList l) = normList (sortPairs l) := by
  induction l with
  | nil => rfl
  | cons p rest ih =>
    obtain ⟨n, t⟩ := p
    rw [normList, sortPairs, sortPairs, ih, insertLe_normList]

theorem visSort_normList (l : List (String × Fs)) (a b c : List String) :
    visSort (normList l) a b c = normList (visSort l a b c) := by
  rw [visSort, visSort, filter_normList, sortPairs_normList]

theorem visSort_sortPairs (l : List (String × Fs)) (a b c : List String)
    (hnd : (l.map Prod.fst).Nodup) :
    visSort (sortPairs l) a b c = visSort l a b c := by
  have hperm : (visSort (sortPairs l) a b c).Perm (visSort l a b c) :=
    ((sortPairs_perm _).trans ((sortPairs_perm l).filter _)).trans (sortPairs_perm _).symm
  apply sorted_perm_nodup_eq _ _ hperm (sortPairs_pairwise _) (sortPairs_pairwise _)
  have h1 : ((sortPairs l).map Prod.fst).Nodup :=
    (((sortPairs_perm l).map Prod.fst).nodup_iff).mpr hnd
  have h2 : List.Sublist (((sortPairs l).filter (keepEntry a b c)).map Prod.fst)
      ((sortPairs l).map Prod.fst) :=
    (List.filter_sublist _).map Prod.fst
  exact (((sortPairs_perm _).map Prod.fst).nodup_iff).mpr (h1.sublist h2)

theorem deepNodupB_names {l : List (String × Fs)} (h : deepNodupB l = true) :
    (l.map Prod.fst).Nodup := by
  induction l with
  | nil => simp
  | cons p rest ih =>
    obtain ⟨n, node⟩ := p
    have hcr : ((rest.map Prod.fst).contains n) = false ∧ deepNodupB rest = true := by
      cases node with
      | file c =>
        rw [deepNodupB, Bool.and_eq_true] at h
        exact ⟨by simpa using h.1, h.2⟩
      | dir ch =>
        rw [deepNodupB, Bool.and_eq_true, Bool.and_eq_true] at h
        exact ⟨by simpa using h.1.1, h.2⟩
    rw [List.map_cons, List.nodup_cons]
    refine ⟨?_, ih hcr.2⟩
    intro hmem
    rw [contains_iff_mem.mpr hmem] at hcr
    cases hcr.1

theorem deepNodupB_mem_dir {l : List (String × Fs)} {n : String} {ch : List (String × Fs)}
    (h : deepNodupB l = true) (hm : (n, Fs.dir ch) ∈ l) : deepNodupB ch = true := by
  induction l with
  | nil => cases hm
  | cons p rest ih =>
    obtain ⟨m, node⟩ := p
    rcases List.mem_cons.mp hm with heq | hm2
    · cases heq
      rw [deepNodupB, Bool.and_eq_true, Bool.and_eq_true] at h
      exact h.1.2
    · cases node with
      | file c =>
        rw [deepNodupB, Bool.and_eq_true] at h
        exact ih h.2 hm2
      | dir ch2 =>
        rw [deepNodupB, Bool.and_eq_true, Bool.and_eq_true] at h
        exact ih h.2 hm2

theorem normList_isEmpty (l : List (String × Fs)) : (normList l).isEmpty = l.isEmpty := by
  cases l with
  | nil => rfl
  | cons p rest => obtain ⟨n, t⟩ := p; rfl

theorem fs_sizeOf_pos (t : Fs) : 1 ≤ sizeOf t := by
  cases t <;> simp

theorem walk_normList_aux : ∀ N : Nat,
    (∀ (c : List (String × Fs)) (rel : List String) (ind : String)
        (idirs ifiles iexts : List String),
      sizeOf c ≤ N → deepNodupB c = true →
      walk (sortPairs (normList c)) rel ind idirs ifiles iexts =
        walk c rel ind idirs ifiles iexts) ∧
    (∀ (l : List (String × Fs)) (rel : List String) (ind : String)
        (idirs ifiles iexts : List String),
      (∀ p ∈ l, sizeOf p.2 ≤ N ∧ ∀ ch, p.2 = Fs.dir ch → deepNodupB ch = true) →
      renderW (normList l) rel ind idirs ifiles iexts =
        renderW l rel ind idirs ifiles iexts) := by
  intro N
  induction N with
  | zero =>
    constructor
    · intro c rel ind idirs ifiles iexts hsz _
      cases c with
      | nil => rfl
      | cons p rest => exfalso; simp at hsz
    · intro l rel ind idirs ifiles iexts hl
      cases l with
      | nil => rfl
      | cons p rest =>
        exfalso
        have := (hl p (List.mem_cons_self p rest)).1
        have := fs_sizeOf_pos p.2
        omega
  | succ N ih =>
    have hrender : ∀ (l : List (String × Fs)) (rel : List String) (ind : String)
        (idirs ifiles iexts : List String),
        (∀ p ∈ l, sizeOf p.2 ≤ N + 1 ∧ ∀ ch, p.2 = Fs.dir ch → deepNodupB ch = true) →
        renderW (normList l) rel ind idirs ifiles iexts =
          renderW l rel ind idirs ifiles iexts := by
      intro l
      induction l with
      | nil => intro rel ind idirs ifiles iexts _; rfl
      | cons p rest ihl =>
        intro rel ind idirs ifiles iexts hl
        obtain ⟨n, t⟩ := p
        have hrest : renderW (normList rest) rel ind idirs ifiles iexts =
            renderW rest rel ind idirs ifiles iexts :=
          ihl rel ind idirs ifiles iexts
            (fun q hq => hl q (List.mem_cons_of_mem _ hq))
        cases t with
        | file cc =>
          rw [normList]
          show renderW ((n, Fs.file cc) :: normList rest) rel ind idirs ifiles iexts =
            renderW ((n, Fs.file cc) :: rest) rel ind idirs ifiles iexts
          simp only [renderW, normList_isEmpty, hrest]
        | dir ch =>
          have hp := hl (n, Fs.dir ch) (List.mem_cons_self _ _)
          have hch1 : sizeOf ch ≤ N := by
            have := hp.1
            simp at this
            omega
          have hch2 : deepNodupB ch = true := hp.2 ch rfl
          have hsub := ih.1 ch (rel ++ [n])
            (ind ++ (if rest.isEmpty = true then "    " else "│   "))
            idirs ifiles iexts hch1 hch2
          simp only [walk] at hsub
          rw [normList]
          show renderW ((n, Fs.dir (sortPairs (normList ch))) :: normList rest)
              rel ind idirs ifiles iexts =
            renderW ((n, Fs.dir ch) :: rest) rel ind idirs ifiles iexts
          simp only [renderW, normList_isEmpty, hrest]
          rw [hsub]
    refine ⟨?_, hrender⟩
    intro c rel ind idirs ifiles iexts hsz hnd
    have hvs : visSort (sortPairs (normList c)) idirs ifiles iexts =
        normList (visSort c idirs ifiles iexts) := by
      rw [visSort_sortPairs _ _ _ _
        (by rw [normList_map_fst]; exact deepNodupB_names hnd),
        visSort_normList]
    simp only [walk, hvs]
    apply hrender
    intro p hp
    have hpc : p ∈ c := mem_of_mem_visSort hp
    constructor
    · have h1 := List.sizeOf_lt_of_mem hpc
      have h2 : sizeOf p.2 < sizeOf p := by
        obtain ⟨a, b⟩ := p
        simp only [Prod.mk.sizeOf_spec]
        omega
      omega
    · intro ch hch
      obtain ⟨a, b⟩ := p
      have hb : b = Fs.dir ch := hch
      subst hb
      exact deepNodupB_mem_dir hnd hpc

/-- **C4**: within every directory the surviving siblings are rendered in
one total order, sorted case-sensitively and lexicographically by name
regardless of file-vs-directory kind; and the walk output depends only on
the tree content, not on the enumeration order of any directory (two trees
with the same recursively sorted canonical form walk to byte-identical
output). -/
theorem sibling_order_and_determinism
    (children c1 c2 : List (String × Fs)) (idirs ifiles iexts : List String)
    (rel : List String) (indent : String)
    (h1 : deepNodupB c1 = true) (h2 : deepNodupB c2 = true)
    (hsame : normFs (Fs.dir c1) = normFs (Fs.dir c2)) :
    List.Pairwise (fun a b => nameLe a b = true) (visSort children idirs ifiles iexts) ∧
    walk c1 rel indent idirs ifiles iexts = walk c2 rel indent idirs ifiles iexts := by
  refine ⟨sortPairs_pairwise _, ?_⟩
  have hs : sortPairs (normList c1) = sortPairs (normList c2) := by
    rw [normFs, normFs] at hsame
    exact Fs.dir.inj hsame
  calc walk c1 rel indent idirs ifiles iexts
      = walk (sortPairs (normList c1)) rel indent idirs ifiles iexts :=
        ((walk_normList_aux (sizeOf c1)).1 c1 rel indent idirs ifiles iexts
          (le_refl _) h1).symm
    _ = walk (sortPairs (normList c2)) rel indent idirs ifiles iexts := by rw [hs]
    _ = walk c2 rel indent idirs ifiles iexts :=
        (walk_normList_aux (sizeOf c2)).1 c2 rel indent idirs ifiles iexts
          (le_refl _) h2

/-- Witness for C4: two enumeration orders of the same two-entry directory
walk to identical output, and the visible entries are sorted. -/
theorem sibling_order_and_determinism_witness :
    List.Pairwise (fun a b => nameLe a b = true)
      (visSort [("b", Fs.file none), ("a", Fs.dir [])] [] [] []) ∧
    walk [("b", Fs.file none), ("a", Fs.dir [])] [] "" [] [] [] =
      walk [("a", Fs.dir []), ("b", Fs.file none)] [] "" [] [] [] := by
  have hab : nameLe ("a", Fs.dir []) ("b", Fs.file none) = true := rfl
  have hba : nameLe ("b", Fs.file none) ("a", Fs.dir []) = false := rfl
  have hab2 : nameLe ("a", Fs.dir (sortPairs (normList []))) ("b", Fs.file none)
      = true := rfl
  have hba2 : nameLe ("b", Fs.file none) ("a", Fs.dir (sortPairs (normList [])))
      = false := rfl
  exact sibling_order_and_determinism
    [("b", Fs.file none), ("a", Fs.dir [])]
    [("b", Fs.file none), ("a", Fs.dir [])]
    [("a", Fs.dir []), ("b", Fs.file none)]
    [] [] [] [] ""
    (by simp [deepNodupB])
    (by simp [deepNodupB])
    (by simp [normFs, normList, sortPairs, insertLe, hab, hba, hab2, hba2])

end Dir2Prompt
